import Mathlib

/-!
Verification of `exec_sc.py`, a batch short-circuit automation script.

The script has two phases:
* a run phase that, for each savecase in `arrCases`, loads the case,
  configures short-circuit reporting, redirects report/progress output to
  per-case text files, applies flat-start conditions, defines a bus
  subsystem and invokes the IECS fault-analysis routine
  (modelled here as an event trace, since the PSSE API is an external
  opaque engine);
* a parse phase that globs the report files and scans them line by line
  with regular expressions, writing rows to a CSV file.

The regular expressions of the source are fixed concrete patterns; each
one is embedded below as a character-level scanning function whose
semantics (leftmost match of `re.findall`, greedy and lazy quantifiers)
is spelled out in its doc comment.
-/

namespace ExecSc

/-- Python `\s` whitespace class (ASCII): space, tab, newline, carriage
return, vertical tab, form feed. -/
def isPySpace (c : Char) : Bool :=
  c == ' ' || c == '\t' || c == '\n' || c == '\r' || c == '\x0b' || c == '\x0c'

/-- `startsWithL pat l` : the list `l` starts with `pat`. -/
def startsWithL : List Char → List Char → Bool
  | [], _ => true
  | _ :: _, [] => false
  | p :: ps, c :: cs => p == c && startsWithL ps cs

/-- `hasSub pat l` : `pat` occurs as a contiguous sublist of `l`. -/
def hasSub (pat : List Char) : List Char → Bool
  | [] => startsWithL pat []
  | c :: cs => startsWithL pat (c :: cs) || hasSub pat cs

/-- Leftmost scan: first position (scanning left to right) at which the
partial matcher `step` succeeds on the remaining suffix.  This is the
search loop of `re.findall`/`re.search`: on failure the start position
advances by one character. -/
def scanFor (step : List Char → Option α) : List Char → Option α
  | [] => none
  | c :: cs =>
    match step (c :: cs) with
    | some r => some r
    | none => scanFor step cs

/-- Rightmost viable occurrence: the last position at which the literal
`pat` occurs and the continuation `f` succeeds on the suffix after it.
This is the behaviour of a greedy `.*` before a literal: backtracking
tries the rightmost occurrence first. -/
def lastSome (pat : List Char) (f : List Char → Option α) : List Char → Option α
  | [] => none
  | c :: cs =>
    match lastSome pat f cs with
    | some r => some r
    | none =>
      if startsWithL pat (c :: cs) then f ((c :: cs).drop pat.length) else none

/-- The prefix of `l` before the last occurrence of `ch`; `none` when
`ch` does not occur.  This is what a greedy `(.*)` captures before a
literal `ch`. -/
def beforeLast (ch : Char) : List Char → Option (List Char)
  | [] => none
  | c :: cs =>
    match beforeLast ch cs with
    | some r => some (c :: r)
    | none => if c = ch then some [] else none

/-- Full match of a glob pattern in which `*` matches any (possibly
empty) character sequence and every other character is literal.  This is
`fnmatch` restricted to patterns without `?` or `[`, which is the shape
of the concrete pattern the source passes to `glob.glob`. -/
def wildMatch : List Char → List Char → Bool
  | [], s => s.isEmpty
  | '*' :: ps, s => starMatch (wildMatch ps) s
  | p :: ps, [] => (p == '*') && starMatch (wildMatch ps) []
  | p :: ps, c :: s => p == c && wildMatch ps (c :: s).tail
where
  /-- `starMatch k s` : `k` succeeds on some suffix of `s` (the `*`
  wildcard absorbs a prefix of `s`). -/
  starMatch (k : List Char → Bool) : List Char → Bool
    | [] => k []
    | c :: s => k (c :: s) || starMatch k s

-- ---- Global definitions of the source (exec_sc.py, lines 44-91) ----

/-- `arrCases` : list of sc cases to process. -/
def arrCases : List String := ["ir652_max.sav", "ir652_min.sav"]

/-- `arrBuses` : list of buses to process. -/
def arrBuses : List Int := [2024, 2028, 2034, 2035, 2042]

/-- `arrCsvHeaders` : output csv headers. -/
def arrCsvHeaders : List String := ["case", "bus", "name", "MVA", "amps", "impedance", "X/R"]

/-- `strReports` : short circuit report file name start, used both for
report output files and as the search pattern when parsing to csv. -/
def strReports : String := "sc_report_-_"

/-- `strProg` : progress file name start. -/
def strProg : String := "sc_prog_-_"

/-- `csvDelim` : the csv delimiter. -/
def csvDelim : String := ","

/-- `csvEOL` : the csv end of line. -/
def csvEOL : String := "\n"

/-- `dictExt["ext_csv"]`. -/
def extCsv : String := ".csv"

/-- `dictExt["ext_txt"]`. -/
def extTxt : String := ".txt"

/-- `reHeaderLine` : the (metacharacter-free) pattern
`X------------ BUS ------------X` used with `re.match`, i.e. anchored at
the start of the line. -/
def reHeaderLine : String := "X------------ BUS ------------X"

/-- `reHeaderLine` as a character list. -/
def headerPat : List Char := reHeaderLine.toList

/-- The literal `3PH` of `reMVA`/`reAmps`. -/
def pat3PH : List Char := "3PH".toList

/-- The literal `THEVENIN IMPEDANCE` of `reImp`/`reXR`. -/
def thevPat : List Char := "THEVENIN IMPEDANCE".toList

/-- The literal `Z+:` of `reImp` (written `Z\+\:` in the source). -/
def zPat : List Char := "Z+:".toList

/-- The literal `, ` (comma, space) of `reXR` (written `\, ` in the source). -/
def commaSpacePat : List Char := [',', ' ']

-- ---- The regular expressions as scanning functions ----

/-- Exact-position match of `[\d]*\.[\d]*` : greedy digits, a literal
dot, greedy digits.  Returns the matched text and the rest of the input.
Since the digit class cannot match `.`, greedy matching is forced: the
maximal digit run, then the dot must follow, then the maximal digit run. -/
def decimalAt (cs : List Char) : Option (List Char × List Char) :=
  match cs.dropWhile Char.isDigit with
  | '.' :: cs2 =>
      some (cs.takeWhile Char.isDigit ++ '.' :: cs2.takeWhile Char.isDigit,
            cs2.dropWhile Char.isDigit)
  | _ => none

/-- `re.findall(reBus, line)[0]` with `reBus = \d{1,}` : the first
maximal run of decimal digits of the line (`none` when the line has no
digit, in which case the source raises IndexError). -/
def findBus : List Char → Option (List Char) :=
  scanFor fun cs =>
    match cs with
    | [] => none
    | c :: cs' => if c.isDigit then some (c :: cs'.takeWhile Char.isDigit) else none

/-- The lazy part `(.+?)\]` of `reName`, applied after an opening `[`:
the shortest non-empty newline-free run followed by `]`.  `.` does not
match a newline. -/
def upToClose : List Char → Option (List Char)
  | [] => none
  | c :: rest =>
    if c = ']' then some []
    else if c = '\n' then none
    else (upToClose rest).map (c :: ·)

/-- Match of `(.+?)\]` at an exact position (the character after `[`):
the content must be non-empty, so the first character is consumed
unconditionally (unless it is a newline) and the rest is the shortest
run up to a closing `]`. -/
def nameAfter : List Char → Option (List Char)
  | [] => none
  | c :: rest => if c = '\n' then none else (upToClose rest).map (c :: ·)

/-- `re.findall(reName, line)[0]` with `reName = \[(.+?)\]` : the lazy
content between the leftmost completable bracket pair. -/
def findName : List Char → Option (List Char) :=
  scanFor fun cs =>
    match cs with
    | [] => none
    | c :: cs' => if c = '[' then nameAfter cs' else none

/-- Match attempt at an exact position for a pattern beginning with the
literal `3PH`: when the position starts with `3PH`, the continuation
receives the text after it. -/
def step3PH (payload : List Char → Option (List Char)) (cs : List Char) :
    Option (List Char) :=
  if startsWithL pat3PH cs then payload (cs.drop 3) else none

/-- Match attempt at an exact position for a pattern beginning with the
literal `THEVENIN IMPEDANCE` followed by `.*`: since `.` does not match
a newline, the continuation receives the text after the literal cut at
the first newline. -/
def stepThev (payload : List Char → Option (List Char)) (cs : List Char) :
    Option (List Char) :=
  if startsWithL thevPat cs then
    payload ((cs.drop thevPat.length).takeWhile (· ≠ '\n'))
  else none

/-- `re.findall(reMVA, line)[0]` with `reMVA = 3PH[\s]*([\d]*\.[\d]*)` :
at the leftmost viable occurrence of `3PH`, skip the (forced maximal)
whitespace run and match the captured decimal.  Whitespace, digit and
dot classes are disjoint, so backtracking cannot choose any other
split. -/
def findMVA : List Char → Option (List Char) :=
  scanFor (step3PH fun after =>
    (decimalAt (after.dropWhile isPySpace)).map (·.1))

/-- `re.findall(reAmps, line)[0]` with
`reAmps = 3PH[\s]*[\d]*\.[\d]*[\s]*([\d]*\.[\d]*)` : as `findMVA` but
the first decimal after `3PH` is consumed uncaptured and the second is
captured. -/
def findAmps : List Char → Option (List Char) :=
  scanFor (step3PH fun after =>
    match decimalAt (after.dropWhile isPySpace) with
    | none => none
    | some (_, rest1) => (decimalAt (rest1.dropWhile isPySpace)).map (·.1))

/-- `re.findall(reImp, line)[0]` with
`reImp = THEVENIN IMPEDANCE.*Z\+\:(.*)\,` : at the leftmost viable
occurrence of the literal `THEVENIN IMPEDANCE`, the greedy `.*` (which
cannot cross a newline) selects the rightmost `Z+:` followed by a comma,
and the greedy capture extends to the last comma of the line. -/
def findImp : List Char → Option (List Char) :=
  scanFor (stepThev (lastSome zPat (beforeLast ',')))

/-- `re.findall(reXR, line)[0]` with
`reXR = THEVENIN IMPEDANCE.*\, ([\d]*\.[\d]*)` : at the leftmost viable
occurrence of the literal, the greedy `.*` selects the rightmost `, `
(comma, space) after which the captured decimal matches. -/
def findXR : List Char → Option (List Char) :=
  scanFor (stepThev (lastSome commaSpacePat fun rest =>
    (decimalAt rest).map (·.1)))

-- ---- The parse loop (exec_sc.py, lines 182-243) ----

/-- One row of extracted values.  `imp` models the local `strImp`; the
source prints it (line 232) but omits it from the csv write
(lines 235-240). -/
structure ScRow where
  caseName : List Char
  busId : List Char
  busName : List Char
  mva : List Char
  amps : List Char
  imp : List Char
  xr : List Char
  deriving DecidableEq, Repr

/-- Result of scanning one report file: the rows written to the csv
before any failure, whether an unhandled IndexError occurred
(`subResult[0]` on an empty findall result, or `bufLines[...]` out of
range), and the number of iterations of the `while` loop. -/
structure ParseOut where
  rows : List ScRow
  err : Bool
  iters : Nat
  deriving DecidableEq, Repr

/-- The `while(ctrLines < iLen)` loop of the source, on the list of
lines of one report file.  A line matching `reHeaderLine` (via
`re.match`, i.e. as a prefix) makes the loop read the next line (bus
data) and the one after it (Thevenin line); each extraction takes
`subResult[0]`, an IndexError when the findall result is empty.  The
loop advances the counter by one inside the matched branch and by one at
the bottom, so a matched header consumes two lines per iteration. -/
def parseLines (cn : List Char) : List (List Char) → ParseOut
  | [] => ⟨[], false, 0⟩
  | l :: rest =>
    if startsWithL headerPat l then
      match rest with
      | [] => ⟨[], true, 1⟩
      | d :: rest2 =>
        match findBus d with
        | none => ⟨[], true, 1⟩
        | some bus =>
        match findName d with
        | none => ⟨[], true, 1⟩
        | some nm =>
        match findMVA d with
        | none => ⟨[], true, 1⟩
        | some mva =>
        match findAmps d with
        | none => ⟨[], true, 1⟩
        | some amps =>
        match rest2 with
        | [] => ⟨[], true, 1⟩
        | t :: _ =>
        match findImp t with
        | none => ⟨[], true, 1⟩
        | some imp =>
        match findXR t with
        | none => ⟨[], true, 1⟩
        | some xr =>
          let out := parseLines cn rest2
          ⟨⟨cn, bus, nm, mva, amps, imp, xr⟩ :: out.rows, out.err, out.iters + 1⟩
    else
      let out := parseLines cn rest
      ⟨out.rows, out.err, out.iters + 1⟩

/-- `sFile.rsplit(".", 1)[0]` : the file name up to the last dot, or the
whole name when it has no dot. -/
def rsplitDot1 (s : List Char) : List Char :=
  match beforeLast '.' s with
  | some p => p
  | none => s

/-- Scan of one report file: the case identifier prepended to each row
is `sCaseName = sFile.rsplit(".", 1)[0]` (line 189). -/
def parseReport (sFile : List Char) (bufLines : List (List Char)) : ParseOut :=
  parseLines (rsplitDot1 sFile) bufLines

/-- The csv write of one row (lines 235-240): six `fCsv.write` calls,
the first five followed by the delimiter and the last (`strXR`) by the
end of line.  `strImp` is not written. -/
def writeRow (r : ScRow) : List Char :=
  r.caseName ++ csvDelim.toList ++ r.busId ++ csvDelim.toList ++ r.busName ++
    csvDelim.toList ++ r.mva ++ csvDelim.toList ++ r.amps ++ csvDelim.toList ++
    r.xr ++ csvEOL.toList

/-- The console print of one row (line 232). -/
def printRow (r : ScRow) : List Char :=
  r.caseName ++ (":   ").toList ++ r.busId ++ (": ").toList ++ r.busName ++
    (", ").toList ++ r.mva ++ (", ").toList ++ r.amps ++ (", ").toList ++
    r.imp ++ (", ").toList ++ r.xr

/-- The header write loop (lines 104-109): each column name, with the
delimiter after every column but the last, then the end of line. -/
def writeHeaderCols : List String → List Char
  | [] => []
  | [h] => h.toList
  | h :: h2 :: t => h.toList ++ csvDelim.toList ++ writeHeaderCols (h2 :: t)

/-- The complete header line written to the csv file. -/
def headerLineOut : List Char := writeHeaderCols arrCsvHeaders ++ csvEOL.toList

/-- `os.path.splitext(basecase)[0]` for a plain file name: leading dots
do not count as extension separators; otherwise the root is the part
before the last dot (the whole name when there is no dot). -/
def splitextRoot (s : List Char) : List Char :=
  let lead := s.takeWhile (· = '.')
  match beforeLast '.' (s.drop lead.length) with
  | some p => lead ++ p
  | none => s

/-- The report file name configured for a savecase (line 132):
`strReports + nameCase + dictExt["ext_txt"]`. -/
def reportFileName (basecase : String) : List Char :=
  strReports.toList ++ splitextRoot basecase.toList ++ extTxt.toList

/-- The progress file name configured for a savecase (line 136). -/
def progFileName (basecase : String) : List Char :=
  strProg.toList ++ splitextRoot basecase.toList ++ extTxt.toList

/-- The pattern passed to `glob.glob` in the parse phase (line 183):
`strReports + "*" + dictExt["ext_txt"]`. -/
def globPattern : List Char := strReports.toList ++ ('*' :: []) ++ extTxt.toList

-- ---- The run phase as an event trace (exec_sc.py, lines 96-183) ----

/-- The observable calls of `main`, in particular every `psspy` API call
of the per-case loop, the `glob.glob` enumeration and the opening of a
report file for reading.  The simulation engine itself is external and
opaque; only the calls made to it are modelled. -/
inductive Ev where
  | psseInit
  | caseLoad (fname : String)
  | scUnits (ival : Int)
  | scZUnits (ival : Int)
  | scCoordinates (ival : Int)
  | scZCoordinates (ival : Int)
  | linesPerPage (device ival : Int)
  | reportOutput (islct : Int) (filarg : List Char) (options1 : Int)
  | progressOutput (islct : Int) (filarg : List Char) (options : Int)
  | flat2 (options : List Int)
  | bsys (sid : Int) (numbus : Int) (buses : List Int)
  | iecs4 (sid : Int) (allFlag : Int) (statuses : List Int)
  | globList (pattern : List Char)
  | openRead (fname : List Char)
  deriving DecidableEq, Repr

/-- The body of the per-case loop (lines 115-178), in source order. -/
def runCaseEv (buses : List Int) (basecase : String) : List Ev :=
  [ Ev.caseLoad basecase,
    Ev.scUnits 1,
    Ev.scZUnits 1,
    Ev.scCoordinates 1,
    Ev.scZCoordinates 0,
    Ev.linesPerPage 1 60,
    Ev.reportOutput 2 (strReports.toList ++ splitextRoot basecase.toList ++ extTxt.toList) 0,
    Ev.progressOutput 2 (strProg.toList ++ splitextRoot basecase.toList ++ extTxt.toList) 0,
    Ev.flat2 [1, 0, 0, 0, 0, 0, 0, 3],
    Ev.bsys 1 (Int.ofNat buses.length) buses,
    Ev.iecs4 1 0 [1, 0, 0, 0, 1, 0, 0, 0, 0, 2, 2, 2, 0, 0, 0, 2, 1] ]

/-- The run phase: the loop over `arrCases`, in list order. -/
def runPhase : List Ev := arrCases.flatMap (runCaseEv arrBuses)

/-- The parse phase on a given result of the glob (the file system is
external, so the file list is a parameter): the glob enumeration, then
each file opened for reading, in order. -/
def parsePhaseEv (files : List (List Char)) : List Ev :=
  Ev.globList globPattern :: files.map Ev.openRead

/-- The trace of `main`: PSSE initialisation, the whole run phase, then
the whole parse phase. -/
def mainTrace (files : List (List Char)) : List Ev :=
  Ev.psseInit :: runPhase ++ parsePhaseEv files

/-- Is an event an invocation of the fault-analysis routine? -/
def isIecs : Ev → Bool
  | Ev.iecs4 _ _ _ => true
  | _ => false

/-- Is an event the opening of a report file for reading? -/
def isOpenRead : Ev → Bool
  | Ev.openRead _ => true
  | _ => false

/-- Is an event a bus-subsystem definition? -/
def isBsys : Ev → Bool
  | Ev.bsys _ _ _ => true
  | _ => false

/-- The savecase name of a case-load event. -/
def evCaseLoadName : Ev → Option String
  | Ev.caseLoad f => some f
  | _ => none

/-- A bus-subsystem definition uses subsystem id 1 and exactly the
configured bus list (vacuously true of other events). -/
def bsysFixed : Ev → Bool
  | Ev.bsys s n b => s == 1 && n == Int.ofNat arrBuses.length && b == arrBuses
  | _ => true

/-- A fault-analysis invocation uses subsystem id 1 (vacuously true of
other events). -/
def iecsSidOne : Ev → Bool
  | Ev.iecs4 s _ _ => s == 1
  | _ => true

/-- The step kind of an event, for stating the per-case ordering. -/
def evKind : Ev → Nat
  | Ev.psseInit => 0
  | Ev.caseLoad _ => 1
  | Ev.scUnits _ => 2
  | Ev.scZUnits _ => 3
  | Ev.scCoordinates _ => 4
  | Ev.scZCoordinates _ => 5
  | Ev.linesPerPage _ _ => 6
  | Ev.reportOutput _ _ _ => 7
  | Ev.progressOutput _ _ _ => 8
  | Ev.flat2 _ => 9
  | Ev.bsys _ _ _ => 10
  | Ev.iecs4 _ _ _ => 11
  | Ev.globList _ => 12
  | Ev.openRead _ => 13

-- ---- Well-formedness of a report file (for the safety claim) ----

/-- The bus-data line carries all four line-level patterns: a digit run,
a bracketed name, and the two decimals after `3PH`. -/
def busDataOk (l : List Char) : Bool :=
  (findBus l).isSome && (findName l).isSome && (findMVA l).isSome && (findAmps l).isSome

/-- The Thevenin line carries the impedance and X/R patterns. -/
def thevOk (l : List Char) : Bool :=
  (findImp l).isSome && (findXR l).isSome

/-- The two lines after a header-marker line exist and match the
bus-data and Thevenin patterns respectively. -/
def wfAt : List (List Char) → Bool
  | d :: t :: _ => busDataOk d && thevOk t
  | _ => false

/-- Format precondition: every line beginning with the header marker is
followed by at least two further lines, the first matching the bus-data
patterns and the second the Thevenin patterns. -/
def wfLines : List (List Char) → Bool
  | [] => true
  | l :: rest => (!startsWithL headerPat l || wfAt rest) && wfLines rest

-- ---- The documented example report block (source comment, lines 80-82) ----

/-- The header line of the example report block documented in the
source's comment. -/
def exHeaderLine : String :=
  "X------------ BUS ------------X          MVA        AMP      DEG       AMP       AMP       AMP       AMP       AMP\n"

/-- The bus-data line of the documented example block. -/
def exDataLine : String :=
  "  2024     [MyBusName   100.00] 3PH    2573.54   14858.3   -88.07   40041.5   39580.3        0.0   13702.0   13702.0\n"

/-- The Thevenin line of the documented example block. -/
def exThevLine : String :=
  "THEVENIN IMPEDANCE, X/R  (OHM)    Z+:/4.274/88.066, 29.60898\n"

/-- A report file consisting of the documented example block. -/
def exLines : List (List Char) := [exHeaderLine.toList, exDataLine.toList, exThevLine.toList]

/-- The row the parse loop extracts from the documented example block
for the first savecase's report file. -/
def exRow : ScRow :=
  ⟨("sc_report_-_ir652_max").toList, ("2024").toList,
    ("MyBusName   100.00").toList, ("2573.54").toList, ("14858.3").toList,
    ("/4.274/88.066").toList, ("29.60898").toList⟩

-- ---- Basic lemmas about the helpers ----

theorem isPySpace_eq_false_of_isDigit {c : Char} (h : c.isDigit = true) :
    isPySpace c = false := by
  by_contra hne
  have hps : isPySpace c = true := by
    cases hc : isPySpace c
    · exact absurd hc hne
    · rfl
  simp only [isPySpace, Bool.or_eq_true, beq_iff_eq] at hps
  rcases hps with ((((h1 | h1) | h1) | h1) | h1) | h1 <;> subst h1 <;>
    exact absurd h (by decide)

theorem ne_of_isDigit_of_not_isDigit {c d : Char} (hc : c.isDigit = true)
    (hd : d.isDigit = false) : d ≠ c := by
  intro h
  subst h
  rw [hc] at hd
  exact Bool.noConfusion hd

theorem takeWhile_append_of_all {p : Char → Bool} {l : List Char} (r : List Char)
    (h : ∀ c ∈ l, p c = true) : (l ++ r).takeWhile p = l ++ r.takeWhile p := by
  induction l with
  | nil => simp
  | cons c l ih =>
    simp [List.takeWhile_cons, h c (by simp), ih fun x hx => h x (by simp [hx])]

theorem dropWhile_append_of_all {p : Char → Bool} {l : List Char} (r : List Char)
    (h : ∀ c ∈ l, p c = true) : (l ++ r).dropWhile p = r.dropWhile p := by
  induction l with
  | nil => simp
  | cons c l ih =>
    simp only [List.cons_append, List.dropWhile_cons, h c (by simp)]
    exact ih fun x hx => h x (by simp [hx])

theorem takeWhile_eq_nil_of_headFail {p : Char → Bool} {l : List Char}
    (h : ∀ c, l.head? = some c → p c = false) : l.takeWhile p = [] := by
  cases l with
  | nil => rfl
  | cons c t => simp [List.takeWhile_cons, h c rfl]

theorem dropWhile_eq_self_of_headFail {p : Char → Bool} {l : List Char}
    (h : ∀ c, l.head? = some c → p c = false) : l.dropWhile p = l := by
  cases l with
  | nil => rfl
  | cons c t => simp [List.dropWhile_cons, h c rfl]

theorem startsWithL_append_self (p r : List Char) :
    startsWithL p (p ++ r) = true := by
  induction p with
  | nil => rfl
  | cons c t ih => simp [startsWithL, ih]

theorem scanFor_cons_of_some {step : List Char → Option α} {c : Char}
    {cs : List Char} {v : α} (h : step (c :: cs) = some v) :
    scanFor step (c :: cs) = some v := by
  simp [scanFor, h]

theorem scanFor_cons_of_none {step : List Char → Option α} {c : Char}
    {cs : List Char} (h : step (c :: cs) = none) :
    scanFor step (c :: cs) = scanFor step cs := by
  simp [scanFor, h]

theorem scanFor_eq_some {step : List Char → Option α} {v : α} :
    ∀ {l : List Char}, scanFor step l = some v → ∃ s : List Char, step s = some v := by
  intro l
  induction l with
  | nil => intro h; simp [scanFor] at h
  | cons c cs ih =>
    intro h
    cases hs : step (c :: cs) with
    | some w =>
      exact ⟨c :: cs, hs.trans ((scanFor_cons_of_some hs).symm.trans h)⟩
    | none =>
      exact ih ((scanFor_cons_of_none hs).symm.trans h)

theorem scanFor_skip_headFail {step : List Char → Option α} {l : List Char} (r : List Char)
    (h : ∀ c ∈ l, ∀ t, step (c :: t) = none) :
    scanFor step (l ++ r) = scanFor step r := by
  induction l with
  | nil => rfl
  | cons c l ih =>
    rw [List.cons_append, scanFor_cons_of_none (h c (by simp) _)]
    exact ih fun x hx => h x (by simp [hx])

theorem pat3PH_eq : pat3PH = ['3', 'P', 'H'] := rfl

theorem step3PH_cons_of_ne {payload : List Char → Option (List Char)} {c : Char}
    (t : List Char) (h : ('3' == c) = false) : step3PH payload (c :: t) = none := by
  simp [step3PH, pat3PH_eq, startsWithL, h]

theorem scanFor_step3PH_skip {payload : List Char → Option (List Char)}
    {l : List Char} (r : List Char) (h : ∀ c ∈ l, ('3' == c) = false) :
    scanFor (step3PH payload) (l ++ r) = scanFor (step3PH payload) r :=
  scanFor_skip_headFail r fun c hc t => step3PH_cons_of_ne t (h c hc)

theorem beq_P_eq_false_of_isDigit {y : Char} (hy : y.isDigit = true) :
    ('P' == y) = false :=
  beq_eq_false_iff_ne.mpr (ne_of_isDigit_of_not_isDigit hy (by decide))

theorem scanFor_step3PH_skip_digits {payload : List Char → Option (List Char)} :
    ∀ (l : List Char) {c : Char} (r : List Char), (∀ x ∈ l, x.isDigit = true) →
    ('P' == c) = false →
    scanFor (step3PH payload) (l ++ c :: r) = scanFor (step3PH payload) (c :: r) := by
  intro l
  induction l with
  | nil => intro c r _ _; rfl
  | cons x l ih =>
    intro c r hl hc
    have hstep : step3PH payload (x :: (l ++ c :: r)) = none := by
      cases l with
      | nil => simp [step3PH, pat3PH_eq, startsWithL, hc]
      | cons y l' =>
        have hy : ('P' == y) = false :=
          beq_P_eq_false_of_isDigit (hl y (by simp))
        simp [step3PH, pat3PH_eq, startsWithL, hy]
    rw [List.cons_append, scanFor_cons_of_none hstep]
    exact ih r (fun x hx => hl x (by simp [hx])) hc

theorem scanFor_step3PH_skip_name {payload : List Char → Option (List Char)} :
    ∀ (l : List Char) (r : List Char), hasSub pat3PH l = false →
    scanFor (step3PH payload) (l ++ ']' :: r) = scanFor (step3PH payload) (']' :: r) := by
  intro l
  induction l with
  | nil => intro r _; rfl
  | cons x l ih =>
    intro r hl
    rw [hasSub, Bool.or_eq_false_iff] at hl
    have hstep : step3PH payload (x :: (l ++ ']' :: r)) = none := by
      cases l with
      | nil => simp [step3PH, pat3PH_eq, startsWithL]
      | cons y l' =>
        cases l' with
        | nil => simp [step3PH, pat3PH_eq, startsWithL]
        | cons z l'' =>
          have h1 := hl.1
          simp only [pat3PH_eq, startsWithL, Bool.and_true] at h1
          have hguard : startsWithL pat3PH (x :: y :: z :: (l'' ++ ']' :: r)) = false := by
            simp only [pat3PH_eq, startsWithL, Bool.and_true]
            exact h1
          simp [step3PH, hguard]
    rw [List.cons_append, scanFor_cons_of_none hstep]
    exact ih r hl.2

theorem isDigit_eq_false_of_isPySpace {c : Char} (h : isPySpace c = true) :
    c.isDigit = false := by
  simp only [isPySpace, Bool.or_eq_true, beq_iff_eq] at h
  rcases h with ((((h1 | h1) | h1) | h1) | h1) | h1 <;> subst h1 <;> decide

theorem scanFor_of_some_at_head {step : List Char → Option α} {l : List Char} {v : α}
    (hne : l ≠ []) (h : step l = some v) : scanFor step l = some v := by
  cases l with
  | nil => exact absurd rfl hne
  | cons c cs => exact scanFor_cons_of_some h

theorem decimalAt_eq {m1 m2 rest : List Char} (h1 : ∀ c ∈ m1, c.isDigit = true)
    (h2 : ∀ c ∈ m2, c.isDigit = true)
    (h3 : ∀ c, rest.head? = some c → c.isDigit = false) :
    decimalAt (m1 ++ '.' :: (m2 ++ rest)) = some (m1 ++ '.' :: m2, rest) := by
  have hd : (m1 ++ '.' :: (m2 ++ rest)).dropWhile Char.isDigit = '.' :: (m2 ++ rest) := by
    rw [dropWhile_append_of_all _ h1, List.dropWhile_cons]
    simp
  have ht : (m1 ++ '.' :: (m2 ++ rest)).takeWhile Char.isDigit = m1 := by
    rw [takeWhile_append_of_all _ h1, List.takeWhile_cons]
    simp
  have ht2 : (m2 ++ rest).takeWhile Char.isDigit = m2 := by
    rw [takeWhile_append_of_all _ h2, takeWhile_eq_nil_of_headFail h3, List.append_nil]
  have hd2 : (m2 ++ rest).dropWhile Char.isDigit = rest := by
    rw [dropWhile_append_of_all _ h2, dropWhile_eq_self_of_headFail h3]
  unfold decimalAt
  rw [hd]
  simp [ht, ht2, hd2]

theorem findBus_eq {sp bus : List Char} {c : Char} (r : List Char)
    (hsp : ∀ x ∈ sp, x.isDigit = false) (hbne : bus ≠ [])
    (hbus : ∀ x ∈ bus, x.isDigit = true) (hc : c.isDigit = false) :
    findBus (sp ++ (bus ++ c :: r)) = some bus := by
  unfold findBus
  rw [scanFor_skip_headFail _ (fun x hx t => by simp [hsp x hx])]
  cases bus with
  | nil => exact absurd rfl hbne
  | cons b bt =>
    rw [List.cons_append]
    apply scanFor_cons_of_some
    have htw : (bt ++ c :: r).takeWhile Char.isDigit = bt := by
      rw [takeWhile_append_of_all _ fun x hx => hbus x (by simp [hx]),
        List.takeWhile_cons]
      simp [hc]
    simp [hbus b (by simp), htw]

theorem upToClose_eq : ∀ {nt : List Char} (r : List Char), ']' ∉ nt → '\n' ∉ nt →
    upToClose (nt ++ ']' :: r) = some nt := by
  intro nt
  induction nt with
  | nil => intro r _ _; simp [upToClose]
  | cons c t ih =>
    intro r h1 h2
    have hc1 : c ≠ ']' := fun h => h1 (by simp [h])
    have hc2 : c ≠ '\n' := fun h => h2 (by simp [h])
    rw [List.cons_append, upToClose, if_neg hc1, if_neg hc2,
      ih r (fun h => h1 (by simp [h])) fun h => h2 (by simp [h])]
    rfl

theorem findName_eq {pre nm : List Char} (r : List Char)
    (hpre : ∀ x ∈ pre, x ≠ '[') (hne : nm ≠ []) (h1 : ']' ∉ nm) (h2 : '\n' ∉ nm) :
    findName (pre ++ '[' :: (nm ++ ']' :: r)) = some nm := by
  unfold findName
  rw [scanFor_skip_headFail _ (fun x hx t => by simp [hpre x hx])]
  apply scanFor_cons_of_some
  cases nm with
  | nil => exact absurd rfl hne
  | cons n0 nt =>
    have hn0 : n0 ≠ '\n' := fun h => h2 (by simp [h])
    simp only [if_pos rfl, List.cons_append, nameAfter, if_neg hn0]
    rw [upToClose_eq r (fun h => h1 (by simp [h])) fun h => h2 (by simp [h])]
    rfl

/-- Skipping the whole data-line prefix (leading spaces, bus digits,
spaces, the bracketed name) for a pattern anchored on `3PH`: no viable
match can start before the literal `3PH` itself. -/
theorem scan3PH_skip_dataPrefix {payload : List Char → Option (List Char)}
    {sp1 bus sp2 nm sp3 : List Char} (r : List Char)
    (hsp1 : ∀ c ∈ sp1, c = ' ') (hbus : ∀ x ∈ bus, x.isDigit = true)
    (hsp2 : sp2 ≠ []) (hsp2' : ∀ c ∈ sp2, c = ' ')
    (hnm : hasSub pat3PH nm = false) (hsp3 : ∀ c ∈ sp3, c = ' ') :
    scanFor (step3PH payload)
      (sp1 ++ (bus ++ (sp2 ++ ('[' :: (nm ++ ']' :: (sp3 ++ r))))))
      = scanFor (step3PH payload) r := by
  rw [scanFor_step3PH_skip _ fun c hc => by rw [hsp1 c hc]; decide]
  cases sp2 with
  | nil => exact absurd rfl hsp2
  | cons s0 sp2' =>
    rw [List.cons_append, scanFor_step3PH_skip_digits bus _ hbus
      (by rw [hsp2' s0 (by simp)]; decide)]
    rw [show (s0 :: (sp2' ++ ('[' :: (nm ++ ']' :: (sp3 ++ r))))) =
      (s0 :: sp2') ++ ('[' :: (nm ++ ']' :: (sp3 ++ r))) by simp]
    rw [scanFor_step3PH_skip _ fun c hc => by rw [hsp2' c hc]; decide]
    rw [show ('[' :: (nm ++ ']' :: (sp3 ++ r))) =
      ['['] ++ (nm ++ ']' :: (sp3 ++ r)) by simp]
    rw [scanFor_step3PH_skip _ fun c hc => by
      rw [show c = '[' by simpa using hc]; decide]
    rw [scanFor_step3PH_skip_name nm _ hnm]
    rw [show (']' :: (sp3 ++ r)) = (']' :: sp3) ++ r by simp]
    rw [scanFor_step3PH_skip _ ?_]
    intro c hc
    rcases List.mem_cons.mp hc with h | h
    · rw [h]; decide
    · rw [hsp3 c h]; decide

/-- At the `3PH` literal, the `reMVA` continuation: skip the whitespace
run and match the captured decimal. -/
theorem findMVA_eq {sp1 bus sp2 nm sp3 ws m1 m2 rest : List Char}
    (hsp1 : ∀ c ∈ sp1, c = ' ') (hbus : ∀ x ∈ bus, x.isDigit = true)
    (hsp2 : sp2 ≠ []) (hsp2' : ∀ c ∈ sp2, c = ' ')
    (hnm : hasSub pat3PH nm = false) (hsp3 : ∀ c ∈ sp3, c = ' ')
    (hws : ∀ c ∈ ws, isPySpace c = true)
    (hm1 : ∀ c ∈ m1, c.isDigit = true) (hm2 : ∀ c ∈ m2, c.isDigit = true)
    (hrest : ∀ c, rest.head? = some c → c.isDigit = false) :
    findMVA (sp1 ++ (bus ++ (sp2 ++ ('[' :: (nm ++ ']' :: (sp3 ++
        '3' :: 'P' :: 'H' :: (ws ++ (m1 ++ '.' :: (m2 ++ rest)))))))))
      = some (m1 ++ '.' :: m2) := by
  unfold findMVA
  rw [scan3PH_skip_dataPrefix _ hsp1 hbus hsp2 hsp2' hnm hsp3]
  apply scanFor_cons_of_some
  have hdw : ((ws ++ (m1 ++ '.' :: (m2 ++ rest))).dropWhile isPySpace)
      = m1 ++ '.' :: (m2 ++ rest) := by
    rw [dropWhile_append_of_all _ hws]
    apply dropWhile_eq_self_of_headFail
    intro c hc
    cases m1 with
    | nil =>
      simp only [List.nil_append, List.head?_cons, Option.some.injEq] at hc
      rw [← hc]; decide
    | cons a t =>
      simp only [List.cons_append, List.head?_cons, Option.some.injEq] at hc
      rw [← hc]
      exact isPySpace_eq_false_of_isDigit (hm1 a (by simp))
  simp only [step3PH, startsWithL, pat3PH_eq, List.drop_succ_cons, List.drop_zero,
    beq_self_eq_true, Bool.and_self, if_pos, Bool.and_true, if_true]
  rw [hdw, decimalAt_eq hm1 hm2 hrest]
  rfl

/-- At the `3PH` literal, the `reAmps` continuation: skip whitespace,
consume the first decimal, skip whitespace, capture the second. -/
theorem findAmps_eq {sp1 bus sp2 nm sp3 ws m1 m2 sp5 a1 a2 tl : List Char}
    (hsp1 : ∀ c ∈ sp1, c = ' ') (hbus : ∀ x ∈ bus, x.isDigit = true)
    (hsp2 : sp2 ≠ []) (hsp2' : ∀ c ∈ sp2, c = ' ')
    (hnm : hasSub pat3PH nm = false) (hsp3 : ∀ c ∈ sp3, c = ' ')
    (hws : ∀ c ∈ ws, isPySpace c = true)
    (hm1 : ∀ c ∈ m1, c.isDigit = true) (hm2 : ∀ c ∈ m2, c.isDigit = true)
    (hsp5 : sp5 ≠ []) (hsp5' : ∀ c ∈ sp5, isPySpace c = true)
    (ha1 : ∀ c ∈ a1, c.isDigit = true) (ha2 : ∀ c ∈ a2, c.isDigit = true)
    (htl : ∀ c, tl.head? = some c → c.isDigit = false) :
    findAmps (sp1 ++ (bus ++ (sp2 ++ ('[' :: (nm ++ ']' :: (sp3 ++
        '3' :: 'P' :: 'H' :: (ws ++ (m1 ++ '.' :: (m2 ++
          (sp5 ++ (a1 ++ '.' :: (a2 ++ tl))))))))))))
      = some (a1 ++ '.' :: a2) := by
  unfold findAmps
  rw [scan3PH_skip_dataPrefix _ hsp1 hbus hsp2 hsp2' hnm hsp3]
  apply scanFor_cons_of_some
  have hdw : ((ws ++ (m1 ++ '.' :: (m2 ++ (sp5 ++ (a1 ++ '.' :: (a2 ++ tl)))))).dropWhile
      isPySpace) = m1 ++ '.' :: (m2 ++ (sp5 ++ (a1 ++ '.' :: (a2 ++ tl)))) := by
    rw [dropWhile_append_of_all _ hws]
    apply dropWhile_eq_self_of_headFail
    intro c hc
    cases m1 with
    | nil =>
      simp only [List.nil_append, List.head?_cons, Option.some.injEq] at hc
      rw [← hc]; decide
    | cons a t =>
      simp only [List.cons_append, List.head?_cons, Option.some.injEq] at hc
      rw [← hc]
      exact isPySpace_eq_false_of_isDigit (hm1 a (by simp))
  have hfirst : decimalAt (m1 ++ '.' :: (m2 ++ (sp5 ++ (a1 ++ '.' :: (a2 ++ tl)))))
      = some (m1 ++ '.' :: m2, sp5 ++ (a1 ++ '.' :: (a2 ++ tl))) := by
    apply decimalAt_eq hm1 hm2
    intro c hc
    cases sp5 with
    | nil => exact absurd rfl hsp5
    | cons s0 t =>
      simp only [List.cons_append, List.head?_cons, Option.some.injEq] at hc
      rw [← hc]
      exact isDigit_eq_false_of_isPySpace (hsp5' s0 (by simp))
  have hdw2 : ((sp5 ++ (a1 ++ '.' :: (a2 ++ tl))).dropWhile isPySpace)
      = a1 ++ '.' :: (a2 ++ tl) := by
    rw [dropWhile_append_of_all _ hsp5']
    apply dropWhile_eq_self_of_headFail
    intro c hc
    cases a1 with
    | nil =>
      simp only [List.nil_append, List.head?_cons, Option.some.injEq] at hc
      rw [← hc]; decide
    | cons a t =>
      simp only [List.cons_append, List.head?_cons, Option.some.injEq] at hc
      rw [← hc]
      exact isPySpace_eq_false_of_isDigit (ha1 a (by simp))
  simp only [step3PH, startsWithL, pat3PH_eq, List.drop_succ_cons, List.drop_zero,
    beq_self_eq_true, Bool.and_self, if_pos, Bool.and_true, if_true]
  rw [hdw, hfirst]
  simp only [hdw2, decimalAt_eq ha1 ha2 htl]
  rfl

theorem hasSub_eq_false_of_not_mem {ch : Char} {pt : List Char} :
    ∀ {s : List Char}, ch ∉ s → hasSub (ch :: pt) s = false := by
  intro s
  induction s with
  | nil => intro _; rfl
  | cons c cs ih =>
    intro h
    have hc : (ch == c) = false := beq_eq_false_iff_ne.mpr fun he => h (by simp [he])
    rw [hasSub, Bool.or_eq_false_iff]
    exact ⟨by simp [startsWithL, hc], ih fun he => h (by simp [he])⟩

theorem lastSome_eq_none {pat : List Char} {f : List Char → Option α} :
    ∀ {s : List Char}, hasSub pat s = false → lastSome pat f s = none := by
  intro s
  induction s with
  | nil => intro _; rfl
  | cons c cs ih =>
    intro h
    rw [hasSub, Bool.or_eq_false_iff] at h
    rw [lastSome, ih h.2, h.1]
    rfl

theorem lastSome_append_eq {pat : List Char} {f : List Char → Option α}
    {R : List Char} {v : α} (hpat : pat ≠ [])
    (hsub : hasSub pat (pat.drop 1 ++ R) = false) (hf : f R = some v) :
    ∀ L, lastSome pat f (L ++ (pat ++ R)) = some v := by
  intro L
  induction L with
  | nil =>
    cases pat with
    | nil => exact absurd rfl hpat
    | cons p0 pt =>
      simp only [List.drop_succ_cons, List.drop_zero] at hsub
      rw [List.nil_append, List.cons_append, lastSome, lastSome_eq_none hsub,
        ← List.cons_append, startsWithL_append_self]
      simp only [if_true]
      rw [List.drop_left]
      exact hf
  | cons c L' ih =>
    rw [List.cons_append, lastSome, ih]

theorem beforeLast_eq_none {ch : Char} :
    ∀ {s : List Char}, ch ∉ s → beforeLast ch s = none := by
  intro s
  induction s with
  | nil => intro _; rfl
  | cons c cs ih =>
    intro h
    rw [beforeLast, ih fun he => h (by simp [he]),
      if_neg fun he : c = ch => h (by simp [he])]

theorem beforeLast_append_eq {ch : Char} {r : List Char} (h : ch ∉ r) :
    ∀ l, beforeLast ch (l ++ ch :: r) = some l := by
  intro l
  induction l with
  | nil => rw [List.nil_append, beforeLast, beforeLast_eq_none h, if_pos rfl]
  | cons c l' ih => rw [List.cons_append, beforeLast, ih]

theorem zPat_eq : zPat = ['Z', '+', ':'] := rfl

theorem zPat_ne_nil : zPat ≠ [] := by decide

theorem thevPat_ne_nil : thevPat ≠ [] := by decide

/-- `reImp` on a line of the Thevenin shape: the whole line starts with
the literal, and on its newline-free remainder the rightmost `Z+:`
followed by a comma starts the capture, which extends to the last
comma. -/
theorem findImp_eq {rest mid imp tail2 : List Char}
    (hT : rest.takeWhile (· ≠ '\n') = mid ++ (zPat ++ (imp ++ ',' :: tail2)))
    (hzR : hasSub zPat (imp ++ ',' :: tail2) = false) (hcomma : ',' ∉ tail2) :
    findImp (thevPat ++ rest) = some imp := by
  unfold findImp
  apply scanFor_of_some_at_head (by simp [thevPat_ne_nil])
  rw [stepThev, startsWithL_append_self, if_pos rfl, List.drop_left, hT]
  apply lastSome_append_eq zPat_ne_nil ?_ (beforeLast_append_eq hcomma imp)
  have hzR' := hzR
  rw [zPat_eq] at hzR'
  simp [startsWithL, hasSub, zPat_eq, hzR']

theorem commaSpacePat_ne_nil : commaSpacePat ≠ [] := by decide

/-- `reXR` on a line of the Thevenin shape: the rightmost `, ` after
which a decimal matches starts the capture. -/
theorem findXR_eq {rest pre x1 x2 tl2 : List Char}
    (hT : rest.takeWhile (· ≠ '\n') = pre ++ (commaSpacePat ++ (x1 ++ '.' :: (x2 ++ tl2))))
    (hc : ',' ∉ x1 ++ '.' :: (x2 ++ tl2))
    (hx1 : ∀ c ∈ x1, c.isDigit = true) (hx2 : ∀ c ∈ x2, c.isDigit = true)
    (htl2 : ∀ c, tl2.head? = some c → c.isDigit = false) :
    findXR (thevPat ++ rest) = some (x1 ++ '.' :: x2) := by
  unfold findXR
  apply scanFor_of_some_at_head (by simp [thevPat_ne_nil])
  rw [stepThev, startsWithL_append_self, if_pos rfl, List.drop_left, hT]
  have hf : (decimalAt (x1 ++ '.' :: (x2 ++ tl2))).map (·.1) = some (x1 ++ '.' :: x2) := by
    rw [decimalAt_eq hx1 hx2 htl2]
    rfl
  apply lastSome_append_eq commaSpacePat_ne_nil ?_ hf
  show hasSub commaSpacePat ([' '] ++ (x1 ++ '.' :: (x2 ++ tl2))) = false
  rw [List.cons_append, List.nil_append, hasSub,
    show commaSpacePat = ',' :: [' '] from rfl,
    hasSub_eq_false_of_not_mem hc]
  simp [startsWithL]

theorem headFail_of_head {l : List Char} {c0 : Char} (h : l.head? = some c0)
    (hc0 : c0.isDigit = false) : ∀ c, l.head? = some c → c.isDigit = false := by
  intro c hc
  rw [h] at hc
  injection hc with he
  exact he ▸ hc0

theorem headFail_nil : ∀ c, (([] : List Char)).head? = some c → c.isDigit = false := by
  intro c hc
  exact absurd hc (by simp)

-- ---- Claim C2 ----

/-- C2: For every report line of the documented fixed format
`<bus> [<name>] 3PH <mva> <amps> ...` with Thevenin line
`THEVENIN IMPEDANCE, X/R (OHM) Z+:<imp>, <xr>`, the parser extracts:
bus = the first run of decimal digits of the data line, name = the text
between the first pair of square brackets, MVA = the first decimal
number after `3PH`, amps = the second decimal number after `3PH`,
impedance = the text between `Z+:` and the last comma of the Thevenin
line, and X/R = the decimal number following that comma.  The format is
given by the decomposition hypotheses: `dl` is the data line made of
spaces, the bus digit run, spaces, the bracketed name, `3PH` and the two
decimals; `tv` is the Thevenin line, whose newline-free remainder after
the literal ends with `Z+:`, the impedance text, and the final comma
followed by the X/R decimal. -/
theorem c2_parser_field_extraction
    {sp1 bus sp2 nm sp3 sp4 m1 m2 sp5 a1 a2 tl : List Char}
    {dl tv rest mid imp x1 x2 tl2 : List Char}
    (hdl : dl = sp1 ++ (bus ++ (sp2 ++ ('[' :: (nm ++ ']' :: (sp3 ++
        '3' :: 'P' :: 'H' :: (sp4 ++ (m1 ++ '.' :: (m2 ++
          (sp5 ++ (a1 ++ '.' :: (a2 ++ tl))))))))))))
    (htv : tv = thevPat ++ rest)
    (hsp1 : ∀ c ∈ sp1, c = ' ')
    (hbusne : bus ≠ []) (hbus : ∀ c ∈ bus, c.isDigit = true)
    (hsp2ne : sp2 ≠ []) (hsp2 : ∀ c ∈ sp2, c = ' ')
    (hnmne : nm ≠ []) (hnm1 : ']' ∉ nm) (hnm2 : '\n' ∉ nm)
    (hnm3 : hasSub pat3PH nm = false)
    (hsp3 : ∀ c ∈ sp3, c = ' ')
    (hsp4 : ∀ c ∈ sp4, isPySpace c = true)
    (hm1 : ∀ c ∈ m1, c.isDigit = true) (hm2 : ∀ c ∈ m2, c.isDigit = true)
    (hsp5ne : sp5 ≠ []) (hsp5 : ∀ c ∈ sp5, isPySpace c = true)
    (ha1 : ∀ c ∈ a1, c.isDigit = true) (ha2 : ∀ c ∈ a2, c.isDigit = true)
    (htl : ∀ c, tl.head? = some c → c.isDigit = false)
    (hT : rest.takeWhile (· ≠ '\n') = mid ++ (zPat ++ (imp ++ ',' ::
        (' ' :: (x1 ++ '.' :: (x2 ++ tl2))))))
    (hzR : hasSub zPat (imp ++ ',' :: (' ' :: (x1 ++ '.' :: (x2 ++ tl2)))) = false)
    (hx1 : ∀ c ∈ x1, c.isDigit = true) (hx2 : ∀ c ∈ x2, c.isDigit = true)
    (hctl2 : ',' ∉ tl2)
    (htl2 : ∀ c, tl2.head? = some c → c.isDigit = false) :
    findBus dl = some bus ∧ findName dl = some nm ∧
    findMVA dl = some (m1 ++ '.' :: m2) ∧ findAmps dl = some (a1 ++ '.' :: a2) ∧
    findImp tv = some imp ∧ findXR tv = some (x1 ++ '.' :: x2) := by
  subst hdl htv
  have hsp1d : ∀ x ∈ sp1, x.isDigit = false := fun x hx => by
    rw [hsp1 x hx]; decide
  have hsp5head : ∀ c, (sp5 ++ (a1 ++ '.' :: (a2 ++ tl))).head? = some c →
      c.isDigit = false := by
    intro c hc
    cases sp5 with
    | nil => exact absurd rfl hsp5ne
    | cons s0 t =>
      simp only [List.cons_append, List.head?_cons, Option.some.injEq] at hc
      rw [← hc]
      exact isDigit_eq_false_of_isPySpace (hsp5 s0 (by simp))
  refine ⟨?_, ?_, ?_, ?_, ?_, ?_⟩
  · -- bus: first digit run
    cases sp2 with
    | nil => exact absurd rfl hsp2ne
    | cons s0 sp2' =>
      simp only [List.cons_append]
      exact findBus_eq _ hsp1d hbusne hbus (by rw [hsp2 s0 (by simp)]; decide)
  · -- name: between the first bracket pair
    rw [show sp1 ++ (bus ++ (sp2 ++ ('[' :: (nm ++ ']' :: (sp3 ++
        '3' :: 'P' :: 'H' :: (sp4 ++ (m1 ++ '.' :: (m2 ++
          (sp5 ++ (a1 ++ '.' :: (a2 ++ tl)))))))))))
      = (sp1 ++ (bus ++ sp2)) ++ ('[' :: (nm ++ ']' :: (sp3 ++
        '3' :: 'P' :: 'H' :: (sp4 ++ (m1 ++ '.' :: (m2 ++
          (sp5 ++ (a1 ++ '.' :: (a2 ++ tl))))))))) by simp]
    apply findName_eq _ ?_ hnmne hnm1 hnm2
    intro x hx
    rcases List.mem_append.mp hx with h | h
    · rw [hsp1 x h]; decide
    rcases List.mem_append.mp h with h | h
    · exact Ne.symm (ne_of_isDigit_of_not_isDigit (hbus x h) (by decide))
    · rw [hsp2 x h]; decide
  · exact findMVA_eq hsp1 hbus hsp2ne hsp2 hnm3 hsp3 hsp4 hm1 hm2 hsp5head
  · exact findAmps_eq hsp1 hbus hsp2ne hsp2 hnm3 hsp3 hsp4 hm1 hm2 hsp5ne hsp5 ha1 ha2 htl
  · -- impedance: between Z+: and the last comma
    apply findImp_eq hT hzR
    intro hmem
    rcases List.mem_cons.mp hmem with h | h
    · exact absurd h (by decide)
    rcases List.mem_append.mp h with h | h
    · exact absurd (hx1 _ h) (by decide)
    rcases List.mem_cons.mp h with h | h
    · exact absurd h (by decide)
    rcases List.mem_append.mp h with h | h
    · exact absurd (hx2 _ h) (by decide)
    · exact hctl2 h
  · -- X/R: the decimal after that comma
    have hT' : rest.takeWhile (· ≠ '\n') = (mid ++ (zPat ++ imp)) ++
        (commaSpacePat ++ (x1 ++ '.' :: (x2 ++ tl2))) := by
      rw [hT, show commaSpacePat = ',' :: [' '] from rfl]
      simp
    apply findXR_eq hT' ?_ hx1 hx2 htl2
    intro hmem
    rcases List.mem_append.mp hmem with h | h
    · exact absurd (hx1 _ h) (by decide)
    rcases List.mem_cons.mp h with h | h
    · exact absurd h (by decide)
    rcases List.mem_append.mp h with h | h
    · exact absurd (hx2 _ h) (by decide)
    · exact hctl2 h

/-- Witness for C2: the extraction theorem applied to the documented
example block of the source comment. -/
theorem c2_parser_field_extraction_witness :
    findBus exDataLine.toList = some (("2024").toList) ∧
    findName exDataLine.toList = some (("MyBusName   100.00").toList) ∧
    findMVA exDataLine.toList = some (("2573").toList ++ '.' :: ("54").toList) ∧
    findAmps exDataLine.toList = some (("14858").toList ++ '.' :: ("3").toList) ∧
    findImp exThevLine.toList = some (("/4.274/88.066").toList) ∧
    findXR exThevLine.toList = some (("29").toList ++ '.' :: ("60898").toList) :=
  @c2_parser_field_extraction
    (("  ").toList) (("2024").toList) (("     ").toList)
    (("MyBusName   100.00").toList) ((" ").toList) (("    ").toList)
    (("2573").toList) (("54").toList) (("   ").toList)
    (("14858").toList) (("3").toList)
    (("   -88.07   40041.5   39580.3        0.0   13702.0   13702.0\n").toList)
    (exDataLine.toList) (exThevLine.toList)
    ((", X/R  (OHM)    Z+:/4.274/88.066, 29.60898\n").toList)
    ((", X/R  (OHM)    ").toList)
    (("/4.274/88.066").toList) (("29").toList) (("60898").toList) ([])
    (by decide) (by decide) (by decide) (by decide) (by decide) (by decide)
    (by decide) (by decide) (by decide) (by decide) (by decide) (by decide)
    (by decide) (by decide) (by decide) (by decide) (by decide) (by decide)
    (by decide)
    (@headFail_of_head
      (("   -88.07   40041.5   39580.3        0.0   13702.0   13702.0\n").toList)
      ' ' (by decide) (by decide))
    (by decide) (by decide) (by decide) (by decide) (by decide)
    headFail_nil

-- ---- Lemmas about the parse loop ----

theorem findBus_some_digits {l b : List Char} (h : findBus l = some b) :
    b ≠ [] ∧ ∀ c ∈ b, c.isDigit = true := by
  unfold findBus at h
  obtain ⟨s, hs⟩ := scanFor_eq_some h
  cases s with
  | nil => simp at hs
  | cons c cs =>
    by_cases hc : c.isDigit
    · simp only [hc, if_true] at hs
      injection hs with hb
      constructor
      · rw [← hb]
        exact List.cons_ne_nil c _
      · intro x hx
        rw [← hb] at hx
        rcases List.mem_cons.mp hx with h | h
        · rw [h]; exact hc
        · exact List.mem_takeWhile_imp h
    · simp [hc] at hs

-- ---- Claim C8 ----

/-- C8: parser totality under the format precondition.  In a report
file in which every line beginning with the header marker is followed by
at least two further lines, the first matching the bus-data patterns and
the second the Thevenin patterns (`wfLines`), the scan never indexes
past the end of the line buffer and every findall has a match, so the
parse completes without an unhandled exception: the error flag (which
models reaching an IndexError) stays false. -/
theorem c8_wellformed_parse_no_error (cn : List Char) (ls : List (List Char))
    (hwf : wfLines ls = true) : (parseLines cn ls).err = false := by
  revert hwf
  refine parseLines.induct cn
    (fun l => wfLines l = true → (parseLines cn l).err = false)
    ?_ ?_ ?_ ?_ ?_ ?_ ?_ ?_ ?_ ?_ ?_ ls
  · intro _
    rfl
  · intro t h hwf
    simp [wfLines, wfAt, h] at hwf
  · intro t h d tail hb hwf
    cases tail with
    | nil => simp [wfLines, wfAt, h] at hwf
    | cons t2 rest => simp [wfLines, wfAt, h, busDataOk, hb] at hwf
  · intro t h d tail _ _ hn hwf
    cases tail with
    | nil => simp [wfLines, wfAt, h] at hwf
    | cons t2 rest => simp [wfLines, wfAt, h, busDataOk, hn] at hwf
  · intro t h d tail _ _ _ _ hm hwf
    cases tail with
    | nil => simp [wfLines, wfAt, h] at hwf
    | cons t2 rest => simp [wfLines, wfAt, h, busDataOk, hm] at hwf
  · intro t h d tail _ _ _ _ _ _ ha hwf
    cases tail with
    | nil => simp [wfLines, wfAt, h] at hwf
    | cons t2 rest => simp [wfLines, wfAt, h, busDataOk, ha] at hwf
  · intro t h d _ _ _ _ _ _ _ _ hwf
    simp [wfLines, wfAt, h] at hwf
  · intro t h d _ hb _ hn _ hm _ ha t2 tail hi hwf
    simp [wfLines, wfAt, h, thevOk, hi] at hwf
  · intro t h d _ hb _ hn _ hm _ ha t2 tail _ hi hx hwf
    simp [wfLines, wfAt, h, thevOk, hx] at hwf
  · intro t h d _ hb _ hn _ hm _ ha t2 tail _ hi _ hx ih hwf
    have hwf' : wfLines (t2 :: tail) = true := by
      rw [wfLines, Bool.and_eq_true, wfLines, Bool.and_eq_true] at hwf
      exact hwf.2.2
    rw [parseLines.eq_def]
    simp only [h, if_true, hb, hn, hm, ha, hi, hx]
    exact ih hwf'
  · intro t tail hns ih hwf
    have hwf' : wfLines tail = true := by
      rw [wfLines, Bool.and_eq_true] at hwf
      exact hwf.2
    simp only [Bool.not_eq_true] at hns
    rw [parseLines.eq_def]
    simp only [hns]
    exact ih hwf'

/-- Witness for C8: the parse of the documented example block satisfies
the format precondition and completes without error. -/
theorem c8_wellformed_parse_no_error_witness :
    wfLines exLines = true ∧
    (parseLines (("sc_report_-_ir652_max").toList) exLines).err = false :=
  ⟨by decide, c8_wellformed_parse_no_error (("sc_report_-_ir652_max").toList)
    exLines (by decide)⟩

-- ---- Claim C9 ----

/-- C9: the parse loop terminates on every finite input: the counter
strictly increases on every iteration, so the scan of a file with
`n` lines performs at most `n` iterations (and at least one when the
file is non-empty). -/
theorem c9_parse_loop_iterations (cn : List Char) (ls : List (List Char)) :
    min 1 ls.length ≤ (parseLines cn ls).iters ∧
    (parseLines cn ls).iters ≤ ls.length := by
  refine parseLines.induct cn
    (fun l => min 1 l.length ≤ (parseLines cn l).iters ∧
      (parseLines cn l).iters ≤ l.length)
    ?_ ?_ ?_ ?_ ?_ ?_ ?_ ?_ ?_ ?_ ?_ ls
  · simp [parseLines]
  · intro t h
    rw [parseLines.eq_def]
    simp [h]
  · intro t h d tail hb
    rw [parseLines.eq_def]
    simp [h, hb]
  · intro t h d tail _ hb hn
    rw [parseLines.eq_def]
    simp [h, hb, hn]
  · intro t h d tail _ hb _ hn hm
    rw [parseLines.eq_def]
    simp [h, hb, hn, hm]
  · intro t h d tail _ hb _ hn _ hm ha
    rw [parseLines.eq_def]
    simp [h, hb, hn, hm, ha]
  · intro t h d _ hb _ hn _ hm _ ha
    rw [parseLines.eq_def]
    simp [h, hb, hn, hm, ha]
  · intro t h d _ hb _ hn _ hm _ ha t2 tail hi
    rw [parseLines.eq_def]
    simp [h, hb, hn, hm, ha, hi]
  · intro t h d _ hb _ hn _ hm _ ha t2 tail _ hi hx
    rw [parseLines.eq_def]
    simp [h, hb, hn, hm, ha, hi, hx]
  · intro t h d _ hb _ hn _ hm _ ha t2 tail _ hi _ hx ih
    rw [parseLines.eq_def]
    simp only [h, if_true, hb, hn, hm, ha, hi, hx]
    simp only [List.length_cons]
    obtain ⟨ih1, ih2⟩ := ih
    simp only [List.length_cons] at ih1 ih2
    omega
  · intro t tail hns ih
    simp only [Bool.not_eq_true] at hns
    rw [parseLines.eq_def]
    simp only [hns, Bool.false_eq_true, if_false, List.length_cons]
    obtain ⟨ih1, ih2⟩ := ih
    omega

-- ---- Claim C7 ----

/-- C7: in every data row emitted to the csv, the bus field is a
non-empty string of decimal digits.  The rows of `parseLines` are
exactly the rows written by the source before any failure, and each bus
field comes from `findBus` applied to the line after a header-marker
line, whose result is always a non-empty digit run. -/
theorem c7_bus_field_digits (cn : List Char) (ls : List (List Char)) :
    ∀ r ∈ (parseLines cn ls).rows,
      r.busId ≠ [] ∧ ∀ c ∈ r.busId, c.isDigit = true := by
  refine parseLines.induct cn
    (fun l => ∀ r ∈ (parseLines cn l).rows,
      r.busId ≠ [] ∧ ∀ c ∈ r.busId, c.isDigit = true)
    ?_ ?_ ?_ ?_ ?_ ?_ ?_ ?_ ?_ ?_ ?_ ls
  · simp [parseLines]
  · intro t h
    rw [parseLines.eq_def]
    simp [h]
  · intro t h d tail hb
    rw [parseLines.eq_def]
    simp [h, hb]
  · intro t h d tail _ hb hn
    rw [parseLines.eq_def]
    simp [h, hb, hn]
  · intro t h d tail _ hb _ hn hm
    rw [parseLines.eq_def]
    simp [h, hb, hn, hm]
  · intro t h d tail _ hb _ hn _ hm ha
    rw [parseLines.eq_def]
    simp [h, hb, hn, hm, ha]
  · intro t h d _ hb _ hn _ hm _ ha
    rw [parseLines.eq_def]
    simp [h, hb, hn, hm, ha]
  · intro t h d _ hb _ hn _ hm _ ha t2 tail hi
    rw [parseLines.eq_def]
    simp [h, hb, hn, hm, ha, hi]
  · intro t h d _ hb _ hn _ hm _ ha t2 tail _ hi hx
    rw [parseLines.eq_def]
    simp [h, hb, hn, hm, ha, hi, hx]
  · intro t h d bus hb _ hn _ hm _ ha t2 tail _ hi _ hx ih
    intro r hr
    rw [parseLines.eq_def] at hr
    simp only [h, if_true, hb, hn, hm, ha, hi, hx] at hr
    rcases List.mem_cons.mp hr with hcase | hcase
    · rw [hcase]
      exact findBus_some_digits hb
    · exact ih r hcase
  · intro t tail hns ih
    intro r hr
    simp only [Bool.not_eq_true] at hns
    rw [parseLines.eq_def] at hr
    simp only [hns] at hr
    exact ih r hr

/-- Witness for C7: the row parsed from the documented example block has
a non-empty all-digit bus field. -/
theorem c7_bus_field_digits_witness :
    exRow.busId ≠ [] ∧ ∀ c ∈ exRow.busId, c.isDigit = true :=
  c7_bus_field_digits (("sc_report_-_ir652_max").toList) exLines exRow (by decide)

-- ---- Lemmas for the csv row shape ----

theorem parseLines_rows_caseName (cn : List Char) (ls : List (List Char)) :
    ∀ r ∈ (parseLines cn ls).rows, r.caseName = cn := by
  refine parseLines.induct cn
    (fun l => ∀ r ∈ (parseLines cn l).rows, r.caseName = cn)
    ?_ ?_ ?_ ?_ ?_ ?_ ?_ ?_ ?_ ?_ ?_ ls
  · simp [parseLines]
  · intro t h
    rw [parseLines.eq_def]
    simp [h]
  · intro t h d tail hb
    rw [parseLines.eq_def]
    simp [h, hb]
  · intro t h d tail _ hb hn
    rw [parseLines.eq_def]
    simp [h, hb, hn]
  · intro t h d tail _ hb _ hn hm
    rw [parseLines.eq_def]
    simp [h, hb, hn, hm]
  · intro t h d tail _ hb _ hn _ hm ha
    rw [parseLines.eq_def]
    simp [h, hb, hn, hm, ha]
  · intro t h d _ hb _ hn _ hm _ ha
    rw [parseLines.eq_def]
    simp [h, hb, hn, hm, ha]
  · intro t h d _ hb _ hn _ hm _ ha t2 tail hi
    rw [parseLines.eq_def]
    simp [h, hb, hn, hm, ha, hi]
  · intro t h d _ hb _ hn _ hm _ ha t2 tail _ hi hx
    rw [parseLines.eq_def]
    simp [h, hb, hn, hm, ha, hi, hx]
  · intro t h d bus hb _ hn _ hm _ ha t2 tail _ hi _ hx ih
    intro r hr
    rw [parseLines.eq_def] at hr
    simp only [h, if_true, hb, hn, hm, ha, hi, hx] at hr
    rcases List.mem_cons.mp hr with hcase | hcase
    · rw [hcase]
    · exact ih r hcase
  · intro t tail hns ih
    intro r hr
    simp only [Bool.not_eq_true] at hns
    rw [parseLines.eq_def] at hr
    simp only [hns] at hr
    exact ih r hr

theorem hasSub_mid (a x b : List Char) : hasSub x (a ++ (x ++ b)) = true := by
  induction a with
  | nil =>
    rw [List.nil_append]
    cases x with
    | nil =>
      cases b with
      | nil => rfl
      | cons c cs => simp [hasSub, startsWithL]
    | cons x0 xt =>
      rw [List.cons_append, hasSub, ← List.cons_append, startsWithL_append_self,
        Bool.true_or]
  | cons c a' ih => simp [hasSub, ih]

theorem csvDelim_toList : csvDelim.toList = [','] := rfl

theorem csvEOL_toList : csvEOL.toList = ['\n'] := rfl

-- ---- Claim C10 ----

/-- C10: every data row actually written to the csv has exactly six
comma-separated fields, in the order case identifier, bus, name, MVA,
amps, X/R; the case identifier carried by the rows of a report file is
the file name without extension (the report prefix plus the savecase
name, never the bare savecase name); the extracted impedance occurs in
the console print of the row but the csv write does not depend on it. -/
theorem c10_csv_row_six_fields :
    (∀ r : ScRow, ',' ∉ r.caseName → ',' ∉ r.busId → ',' ∉ r.busName →
      ',' ∉ r.mva → ',' ∉ r.amps → ',' ∉ r.xr →
      ((writeRow r).dropLast).splitOn ',' =
        [r.caseName, r.busId, r.busName, r.mva, r.amps, r.xr]) ∧
    (∀ cn b n m a i1 i2 x,
      writeRow ⟨cn, b, n, m, a, i1, x⟩ = writeRow ⟨cn, b, n, m, a, i2, x⟩) ∧
    (∀ r : ScRow, hasSub r.imp (printRow r) = true) ∧
    (∀ (f : List Char) (bufLines : List (List Char)),
      ∀ r ∈ (parseReport f bufLines).rows, r.caseName = rsplitDot1 f) ∧
    (∀ base : List Char,
      rsplitDot1 (strReports.toList ++ (base ++ extTxt.toList)) =
        strReports.toList ++ base ∧ strReports.toList ++ base ≠ base) := by
  refine ⟨?_, ?_, ?_, ?_, ?_⟩
  · intro r h1 h2 h3 h4 h5 h6
    have hnn : [r.caseName, r.busId, r.busName, r.mva, r.amps, r.xr] ≠ [] := by
      simp
    have hx : ∀ l ∈ [r.caseName, r.busId, r.busName, r.mva, r.amps, r.xr],
        ',' ∉ l := by
      intro l hl
      simp only [List.mem_cons, List.not_mem_nil, or_false] at hl
      rcases hl with rfl | rfl | rfl | rfl | rfl | rfl <;> assumption
    have hdrop : (writeRow r).dropLast =
        [','].intercalate [r.caseName, r.busId, r.busName, r.mva, r.amps, r.xr] := by
      rw [writeRow, csvDelim_toList, csvEOL_toList]
      rw [show r.caseName ++ [','] ++ r.busId ++ [','] ++ r.busName ++ [','] ++
          r.mva ++ [','] ++ r.amps ++ [','] ++ r.xr ++ ['\n'] =
          (r.caseName ++ [','] ++ r.busId ++ [','] ++ r.busName ++ [','] ++
          r.mva ++ [','] ++ r.amps ++ [','] ++ r.xr) ++ ['\n'] by simp]
      rw [List.dropLast_concat]
      simp [List.intercalate, List.intersperse]
    rw [hdrop, List.splitOn_intercalate _ ',' hx hnn]
  · intro cn b n m a i1 i2 x
    rfl
  · intro r
    rw [printRow]
    rw [show r.caseName ++ (":   ").toList ++ r.busId ++ (": ").toList ++
        r.busName ++ (", ").toList ++ r.mva ++ (", ").toList ++ r.amps ++
        (", ").toList ++ r.imp ++ (", ").toList ++ r.xr =
        (r.caseName ++ (":   ").toList ++ r.busId ++ (": ").toList ++
        r.busName ++ (", ").toList ++ r.mva ++ (", ").toList ++ r.amps ++
        (", ").toList) ++ (r.imp ++ ((", ").toList ++ r.xr)) by simp]
    exact hasSub_mid _ r.imp _
  · intro f bufLines r hr
    exact parseLines_rows_caseName (rsplitDot1 f) bufLines r hr
  · intro base
    constructor
    · have hext : extTxt.toList = '.' :: (("txt").toList) := by decide
      rw [rsplitDot1]
      rw [show strReports.toList ++ (base ++ extTxt.toList) =
          (strReports.toList ++ base) ++ '.' :: (("txt").toList) by
            rw [hext]; simp]
      rw [beforeLast_append_eq (by decide) (strReports.toList ++ base)]
    · intro h
      have hlen := congrArg List.length h
      simp only [List.length_append] at hlen
      have : strReports.toList.length = 12 := by decide
      omega

/-- Witness for C10: the row parsed from the documented example block
splits into exactly the six fields, and its impedance occurs in the
console print. -/
theorem c10_csv_row_six_fields_witness :
    ((writeRow exRow).dropLast).splitOn ',' =
      [exRow.caseName, exRow.busId, exRow.busName, exRow.mva, exRow.amps,
        exRow.xr] ∧
    hasSub exRow.imp (printRow exRow) = true :=
  ⟨c10_csv_row_six_fields.1 exRow (by decide) (by decide) (by decide)
      (by decide) (by decide) (by decide),
    c10_csv_row_six_fields.2.2.1 exRow⟩

-- ---- Claim C1 ----

/-- C1 is contradicted by the code: the header row written to the csv
has the seven columns case, bus, name, MVA, amps, impedance, X/R, but
every data row writes only six fields — the impedance is extracted and
printed, not written.  At the documented example report block the single
parsed row serialises to six comma-separated fields while the header
declares seven. -/
theorem c1_rows_have_six_fields_not_seven :
    (headerLineOut.dropLast).splitOn ',' =
      [("case").toList, ("bus").toList, ("name").toList, ("MVA").toList,
        ("amps").toList, ("impedance").toList, ("X/R").toList] ∧
    ((headerLineOut.dropLast).splitOn ',').length = 7 ∧
    (parseLines (("sc_report_-_ir652_max").toList) exLines).rows = [exRow] ∧
    (((writeRow exRow).dropLast).splitOn ',').length = 6 ∧ (6 : Nat) ≠ 7 := by
  refine ⟨by decide, by decide, by decide, by decide, by decide⟩

-- ---- Claim C3 ----

/-- C3: for every savecase in the configured case list, in list order,
the run phase performs: load the case, configure the four short-circuit
reporting options, set lines per page and redirect report and progress
output, apply flat-start conditions, define the bus subsystem, and
invoke the IECS routine exactly once — in that order, as one contiguous
block per case, each block complete before the next case's block
begins. -/
theorem c3_per_case_steps_in_order :
    runPhase = runCaseEv arrBuses ("ir652_max.sav") ++
      runCaseEv arrBuses ("ir652_min.sav") ∧
    (∀ c : String, (runCaseEv arrBuses c).map evKind =
      [1, 2, 3, 4, 5, 6, 7, 8, 9, 10, 11]) ∧
    (∀ c : String, ((runCaseEv arrBuses c).filter isIecs).length = 1) := by
  refine ⟨by decide, ?_, ?_⟩
  · intro c
    rfl
  · intro c
    rfl

-- ---- Claim C4 ----

/-- C4: no report file is opened until the fault-analysis routine has
run for every savecase: in the trace of `main`, every IECS invocation
precedes every report-file open, whatever files the glob returns. -/
theorem c4_simulation_before_parse (files : List (List Char)) (i j : Nat)
    (s a : Int) (st : List Int) (f : List Char)
    (hi : (mainTrace files)[i]? = some (Ev.iecs4 s a st))
    (hj : (mainTrace files)[j]? = some (Ev.openRead f)) : i < j := by
  have hsplit : mainTrace files = (Ev.psseInit :: runPhase) ++ parsePhaseEv files := by
    simp [mainTrace]
  have hlen : (Ev.psseInit :: runPhase).length = 23 := by decide
  have hiA : i < 23 := by
    by_contra hge
    push_neg at hge
    rw [hsplit, List.getElem?_append_right (by omega)] at hi
    have hmem := List.getElem?_mem hi
    rcases List.mem_cons.mp hmem with hc | hc
    · cases hc
    · obtain ⟨g, _, he⟩ := List.mem_map.mp hc
      cases he
  have hjB : 23 ≤ j := by
    by_contra hlt
    push_neg at hlt
    rw [hsplit, List.getElem?_append_left (by omega)] at hj
    have hmem := List.getElem?_mem hj
    have hno : ∀ e ∈ (Ev.psseInit :: runPhase), isOpenRead e = false := by decide
    have hfalse := hno _ hmem
    simp [isOpenRead] at hfalse
  omega

/-- Witness for C4: in the trace with one report file found, the IECS
invocation of the first case (index 11) precedes the file open
(index 24). -/
theorem c4_simulation_before_parse_witness :
    (mainTrace [(("sc_report_-_ir652_max.txt")).toList])[11]? =
      some (Ev.iecs4 1 0 [1, 0, 0, 0, 1, 0, 0, 0, 0, 2, 2, 2, 0, 0, 0, 2, 1]) ∧
    (mainTrace [(("sc_report_-_ir652_max.txt")).toList])[24]? =
      some (Ev.openRead (("sc_report_-_ir652_max.txt")).toList) ∧
    (11 : Nat) < 24 :=
  ⟨by decide, by decide,
    c4_simulation_before_parse [(("sc_report_-_ir652_max.txt")).toList] 11 24
      1 0 [1, 0, 0, 0, 1, 0, 0, 0, 0, 2, 2, 2, 0, 0, 0, 2, 1]
      ((("sc_report_-_ir652_max.txt")).toList) (by decide) (by decide)⟩

-- ---- Claim C5 ----

/-- C5: round trip of report-file naming: for every configured savecase,
the report file name set in the run phase matches the glob pattern used
by the parse phase, so the report file this run produces is among the
files the glob enumerates. -/
theorem c5_report_name_matches_glob :
    ∀ c ∈ arrCases, wildMatch globPattern (reportFileName c) = true := by
  decide

/-- Witness for C5 at the first savecase. -/
theorem c5_report_name_matches_glob_witness :
    wildMatch globPattern (reportFileName ("ir652_max.sav")) = true :=
  c5_report_name_matches_glob ("ir652_max.sav") (by decide)

-- ---- Claim C6 ----

/-- C6: the savecase and bus lists are fixed for the whole run: every
bus-subsystem definition in the trace uses subsystem id 1 and exactly
the configured bus list, every IECS invocation uses subsystem id 1, the
sequence of loaded cases is exactly the configured case list, and one
subsystem definition happens per case. -/
theorem c6_bus_and_case_lists_fixed :
    (∀ (files : List (List Char)) (e : Ev), e ∈ mainTrace files →
      bsysFixed e = true ∧ iecsSidOne e = true) ∧
    runPhase.filterMap evCaseLoadName = arrCases ∧
    (runPhase.filter isBsys).length = arrCases.length := by
  refine ⟨?_, by decide, by decide⟩
  intro files e he
  rw [show mainTrace files = (Ev.psseInit :: runPhase) ++ parsePhaseEv files by
    simp [mainTrace]] at he
  rcases List.mem_append.mp he with hA | hB
  · have hall : ∀ x ∈ (Ev.psseInit :: runPhase),
        bsysFixed x = true ∧ iecsSidOne x = true := by decide
    exact hall e hA
  · rcases List.mem_cons.mp hB with hg | hm
    · rw [hg]
      exact ⟨rfl, rfl⟩
    · obtain ⟨g, _, he2⟩ := List.mem_map.mp hm
      rw [← he2]
      exact ⟨rfl, rfl⟩

/-- Witness for C6: the subsystem-definition event of the trace with no
files found satisfies both fixed-list properties. -/
theorem c6_bus_and_case_lists_fixed_witness :
    bsysFixed (Ev.bsys 1 5 arrBuses) = true ∧
    iecsSidOne (Ev.bsys 1 5 arrBuses) = true :=
  c6_bus_and_case_lists_fixed.1 [] (Ev.bsys 1 5 arrBuses) (by decide)

end ExecSc
